import Mathlib

/-!
Verification of the AtlasAI browser-extension client code.

Shallow embedding of:
* `CacheManager` (in-memory LRU cache with TTL) — `src/unnamed/part_005`;
* `APIClient.request` retry logic — `src/unnamed/part_004`;
* `MessageRenderer.escapeHtml` / `renderPlainText` — `src/unnamed/part_007`;
* `StreamHandler.streamChat` / `cancel` / `isStreaming` — `src/unnamed/part_007`;
* `saveSettings` required-field validation —
  `src/extension/src/js/settings/settings.js`.

JavaScript `Map` objects are modelled as association lists in insertion
order (a JS `Map` iterates in insertion order and never holds duplicate
keys; `map.set` on an existing key updates the value in place, keeping the
original position, and `map.set` on a fresh key appends).  Times
(`Date.now()`) are naturals passed explicitly.
-/

namespace AtlasAI

/-! ## Association-list model of a JS `Map` -/

def lookupKey {β : Type} : List (String × β) → String → Option β
  | [], _ => none
  | (k1, v) :: rest, k => if k1 = k then some v else lookupKey rest k

def hasKey {β : Type} (l : List (String × β)) (k : String) : Bool :=
  (lookupKey l k).isSome

/-- `map.set k v`: update in place if the key is present (a JS `Map` keeps
the original insertion position), else append.  A JS `Map` never holds two
entries with the same key, so replacing the first occurrence is exact. -/
def mapSet {β : Type} : List (String × β) → String → β → List (String × β)
  | [], k, v => [(k, v)]
  | (k1, w) :: rest, k, v =>
      if k1 = k then (k, v) :: rest else (k1, w) :: mapSet rest k v

/-- `map.delete k`: remove the (unique) entry with key `k`. -/
def mapDelete {β : Type} : List (String × β) → String → List (String × β)
  | [], _ => []
  | (k1, v) :: rest, k => if k1 = k then rest else (k1, v) :: mapDelete rest k

/-! ## CacheManager (`src/unnamed/part_005`)

The cached `data` value (an arbitrary JS object) is a type parameter. -/

structure CacheEntry (α : Type) where
  data : α
  createdAt : Nat
  lastAccessed : Nat
  expiresAt : Nat
  deriving DecidableEq

structure CacheManager (α : Type) where
  cache : List (String × CacheEntry α)
  maxSize : Nat
  ttl : Nat
  enabled : Bool
  deriving DecidableEq

/-- JS `options.x || dflt` for a numeric option: `0` is falsy. -/
def jsOrNat (o : Option Nat) (dflt : Nat) : Nat :=
  match o with
  | some n => if n = 0 then dflt else n
  | none => dflt

/-- The `CacheManager` constructor: `maxSize` defaults to 50, `ttl` to
5 minutes (300000 ms), `enabled` to `options.enabled !== false`. -/
def CacheManager.init (α : Type) (maxSizeOpt ttlOpt : Option Nat)
    (enabledOpt : Option Bool) : CacheManager α :=
  { cache := []
    maxSize := jsOrNat maxSizeOpt 50
    ttl := jsOrNat ttlOpt (5 * 60 * 1000)
    enabled := match enabledOpt with
      | some false => false
      | _ => true }

/-- The whitespace class of the JS regex `\s` (ASCII part) and of
`String.prototype.trim`. -/
def jsWs (c : Char) : Bool :=
  c = ' ' ∨ c = Char.ofNat 9 ∨ c = Char.ofNat 10 ∨ c = Char.ofNat 13 ∨
    c = Char.ofNat 11 ∨ c = Char.ofNat 12

/-- `replace(/\s+/g, ' ')`: collapse every whitespace run to one space.
The boolean argument records whether the previous character was part of a
whitespace run already replaced. -/
def collapseWsAux : List Char → Bool → List Char
  | [], _ => []
  | c :: rest, prev =>
      if jsWs c then
        if prev then collapseWsAux rest true else ' ' :: collapseWsAux rest true
      else c :: collapseWsAux rest false

def collapseWs (l : List Char) : List Char := collapseWsAux l false

/-- `query.trim()`. -/
def jsTrim (l : List Char) : List Char :=
  ((l.dropWhile jsWs).reverse.dropWhile jsWs).reverse

/-- `generateKey`: normalize the query (trim, lowercase, collapse
whitespace) and prepend the session id and a colon. -/
def generateKey (query sessionId : String) : String :=
  sessionId ++ ":" ++
    String.mk (collapseWs ((jsTrim query.toList).map Char.toLower))

/-- `CacheManager.get`: returns the JS return value together with the
updated manager (the JS method mutates `this.cache` in place). -/
def CacheManager.get {α : Type} (m : CacheManager α)
    (query sessionId : String) (now : Nat) : Option α × CacheManager α :=
  if m.enabled = false then (none, m)
  else
    let key := generateKey query sessionId
    match lookupKey m.cache key with
    | none => (none, m)
    | some cached =>
        if cached.expiresAt < now then
          (none, { m with cache := mapDelete m.cache key })
        else
          (some cached.data,
            { m with cache :=
                mapSet m.cache key { cached with lastAccessed := now } })

/-- The `for (const [key, value] of this.cache.entries())` loop of
`evictLRU`, carrying `(oldestKey, oldestTime)`; the initial accumulator
`none` stands for `(null, Infinity)`. -/
def findOldestAux {α : Type} :
    List (String × CacheEntry α) → Option (String × Nat) →
      Option (String × Nat)
  | [], acc => acc
  | (k, v) :: rest, acc =>
      match acc with
      | none => findOldestAux rest (some (k, v.lastAccessed))
      | some (k0, t0) =>
          if v.lastAccessed < t0 then
            findOldestAux rest (some (k, v.lastAccessed))
          else findOldestAux rest (some (k0, t0))

/-- `evictLRU` on the underlying map: delete the entry with the smallest
`lastAccessed`.  The JS guard `if (oldestKey)` skips the delete when
`oldestKey` is `null` (empty cache) or the empty string (falsy). -/
def evictLRUCache {α : Type} (l : List (String × CacheEntry α)) :
    List (String × CacheEntry α) :=
  match findOldestAux l none with
  | some kt => if kt.1 = "" then l else mapDelete l kt.1
  | none => l

/-- `evictLRU` mutates only `this.cache`. -/
def CacheManager.evictLRU {α : Type} (m : CacheManager α) : CacheManager α :=
  { m with cache := evictLRUCache m.cache }

/-- `CacheManager.set`: evict when at capacity and the key is fresh, then
store the entry with fresh timestamps. -/
def CacheManager.set {α : Type} (m : CacheManager α) (query : String)
    (data : α) (sessionId : String) (now : Nat) : CacheManager α :=
  if m.enabled = false then m
  else
    let key := generateKey query sessionId
    let m1 :=
      if m.maxSize ≤ m.cache.length ∧ hasKey m.cache key = false then
        m.evictLRU
      else m
    let entry : CacheEntry α :=
      { data := data, createdAt := now, lastAccessed := now
        expiresAt := now + m.ttl }
    { m1 with cache := mapSet m1.cache key entry }

/-! ## APIClient (`src/unnamed/part_004`)

`request` is modelled over the list of outcomes the network would produce
for the successive attempts (one `ReqOutcome` per `fetch`). -/

structure JsError where
  name : String
  message : String
  deriving DecidableEq

inductive ReqOutcome where
  | response (status : Nat) (detail : Option String)
  | netError (message : String)
  deriving DecidableEq

/-- `response.ok`: status in the inclusive range 200–299. -/
def respOk (status : Nat) : Bool := 200 ≤ status ∧ status < 300

def rateLimitedMsg : String := "RATE_LIMITED"

def serverErrorMsg : String := "SERVER_ERROR"

def typeErrorName : String := "TypeError"

def plainErrorName : String := "Error"

def authFailedMsg : String := "Authentication failed"

def requestFailedPre : String := "Request failed with status "

def requestFailedMsg (status : Nat) : String :=
  requestFailedPre ++ toString status

/-- The error thrown by the `try` block of `APIClient.request` for one
attempt (`none` when `response.ok` holds and the response is returned).
A failed `fetch` rejects with a `TypeError`. -/
def thrownError : ReqOutcome → Option JsError
  | .response status detail =>
      if respOk status then none
      else if status = 429 then some ⟨plainErrorName, rateLimitedMsg⟩
      else if 500 ≤ status then some ⟨plainErrorName, serverErrorMsg⟩
      else if status = 401 ∨ status = 403 then
        some ⟨plainErrorName, detail.getD authFailedMsg⟩
      else some ⟨plainErrorName, detail.getD (requestFailedMsg status)⟩
  | .netError msg => some ⟨typeErrorName, msg⟩

structure APIClient where
  baseUrl : String
  maxRetries : Nat
  initialRetryDelay : Nat
  deriving DecidableEq

def APIClient.init (baseUrl : String) : APIClient :=
  { baseUrl := baseUrl, maxRetries := 3, initialRetryDelay := 1000 }

/-- The `shouldRetry` boolean of the `catch` block. -/
def shouldRetry (c : APIClient) (e : JsError) (retryCount : Nat) : Bool :=
  (e.message == rateLimitedMsg || e.message == serverErrorMsg ||
      e.name == typeErrorName) &&
    decide (retryCount < c.maxRetries)

inductive RequestResult where
  | success (status : Nat)
  | failure (e : JsError)
  | exhausted
  deriving DecidableEq

/-- `APIClient.request`, consuming one modelled outcome per attempt;
`exhausted` stands for a retry recursion past the supplied outcomes. -/
def APIClient.request (c : APIClient) :
    List ReqOutcome → Nat → RequestResult
  | [], _ => .exhausted
  | .response status detail :: rest, retryCount =>
      match thrownError (.response status detail) with
      | none => .success status
      | some e =>
          if shouldRetry c e retryCount then
            APIClient.request c rest (retryCount + 1)
          else .failure e
  | .netError msg :: rest, retryCount =>
      if shouldRetry c ⟨typeErrorName, msg⟩ retryCount then
        APIClient.request c rest (retryCount + 1)
      else .failure ⟨typeErrorName, msg⟩

/-! ## MessageRenderer (`src/unnamed/part_007`)

`escapeHtml` and `renderPlainText` are chains of global single-character
`String.replace` calls; a global replacement of one character is exactly a
per-character flat map, modelled by `replaceChar`. -/

def quotChar : Char := Char.ofNat 34

def aposChar : Char := Char.ofNat 39

def nlChar : Char := Char.ofNat 10

def escAmp : List Char := "&amp;".toList

def escLt : List Char := "&lt;".toList

def escGt : List Char := "&gt;".toList

def escQuot : List Char := "&quot;".toList

def escApos : List Char := "&#039;".toList

def brTag : List Char := "<br>".toList

/-- `text.replace(/pat/g, repl)` for a single-character pattern. -/
def replaceChar (pat : Char) (repl : List Char) : List Char → List Char
  | [] => []
  | c :: rest => (if c = pat then repl else [c]) ++ replaceChar pat repl rest

/-- `escapeHtml`: `&`, `<`, `>`, `"`, `'` replaced in that order. -/
def escapeHtml (l : List Char) : List Char :=
  replaceChar aposChar escApos
    (replaceChar quotChar escQuot
      (replaceChar '>' escGt
        (replaceChar '<' escLt
          (replaceChar '&' escAmp l))))

/-- `renderPlainText`: the same five replacements as `escapeHtml` (the
source repeats them literally), then `\n` → `<br>`. -/
def renderPlainText (l : List Char) : List Char :=
  replaceChar nlChar brTag (escapeHtml l)

/-- The per-character action of the `escapeHtml` chain. -/
def escChar (c : Char) : List Char :=
  if c = '&' then escAmp
  else if c = '<' then escLt
  else if c = '>' then escGt
  else if c = quotChar then escQuot
  else if c = aposChar then escApos
  else [c]

def entityList : List (List Char) := [escAmp, escLt, escGt, escQuot, escApos]

/-! ## StreamHandler (`src/unnamed/part_007`) -/

def postMethod : String := "POST"

def apiChatStreamPath : String := "/api/chat/stream?user_id="

/-- Modelled from the spec: the path the claim asserts for the stream
request (`POST /chat/stream?user_id=<string>`), for comparison with the
path the source builds. -/
def specClaimedStreamPath : String := "/chat/stream?user_id="

def failedConnectMsg : String := "Failed to connect to stream"

def cancelledByUserMsg : String := "Stream cancelled by user"

/-- The single `fetch` issued by `streamChat`: `POST` to
`${this.apiUrl}/api/chat/stream?user_id=${userId}` with JSON body
`{message, session_id}`. -/
structure StreamRequest where
  method : String
  url : String
  bodyMessage : String
  bodySessionId : String
  deriving DecidableEq

def streamChatRequest (apiUrl message sessionId userId : String) :
    StreamRequest :=
  { method := postMethod
    url := apiUrl ++ apiChatStreamPath ++ userId
    bodyMessage := message
    bodySessionId := sessionId }

/-- A parsed SSE `data:` payload.  Optional fields model `data.x`
possibly being absent (`x || fallback` in the source; a present array is
always truthy in JS, so only absence selects the fallback). -/
inductive SSEEvent where
  | start
  | sourcesEv (sources : Option (List String))
  | contextEv (count : Nat) (usedSources documents : Option (List String))
  | chunk (text : String)
  | doneEv (sources usedSources documents : Option (List String))
  | errorEv (message : Option String)
  | unknown
  deriving DecidableEq

/-- One callback invocation observed by the caller of `streamChat`. -/
inductive CbCall where
  | onStart
  | onSources (sources : List String)
  | onContext (count : Nat) (usedSources documents : List String)
  | onChunk (text : String)
  | onDone (sources usedSources documents : List String)
  | onError (message : String)
  deriving DecidableEq

/-- The mutable locals of the read loop. -/
structure StreamState where
  fullResponse : String
  sources : List String
  usedSources : List String
  documents : List String
  deriving DecidableEq

def initialStreamState : StreamState :=
  { fullResponse := "", sources := [], usedSources := [], documents := [] }

/-- One iteration of the `switch (data.type)`.  NOTE (faithful to the
source): the `case 'error'` `throw` is lexically inside the
`try { JSON.parse(...); switch ... }` whose `catch (parseError)` merely
logs, so an `error` event changes nothing and the loop continues. -/
def processEvent (st : StreamState) : SSEEvent → StreamState × List CbCall
  | .start => (st, [.onStart])
  | .sourcesEv ss =>
      let s := ss.getD []
      ({ st with sources := s }, [.onSources s])
  | .contextEv n us ds =>
      let u := us.getD []
      let d := ds.getD []
      ({ st with usedSources := u, documents := d }, [.onContext n u d])
  | .chunk t =>
      ({ st with fullResponse := st.fullResponse ++ t }, [.onChunk t])
  | .doneEv ss us ds =>
      let s := ss.getD st.sources
      let u := us.getD st.usedSources
      let d := ds.getD st.documents
      ({ st with sources := s, usedSources := u, documents := d },
        [.onDone s u d])
  | .errorEv _ => (st, [])
  | .unknown => (st, [])

def processEvents : List SSEEvent → StreamState → StreamState × List CbCall
  | [], st => (st, [])
  | e :: rest, st =>
      let r1 := processEvent st e
      let r2 := processEvents rest r1.1
      (r2.1, r1.2 ++ r2.2)

/-- The object `streamChat` resolves with. -/
structure StreamResult where
  response : String
  sources : List String
  usedSources : List String
  documents : List String
  deriving DecidableEq

/-- How one `streamChat` run unfolds at its suspension points: the HTTP
response is not ok; or the stream delivers a list of events and then ends
normally, is aborted (`AbortError`), or fails with another error. -/
inductive StreamRun where
  | success (events : List SSEEvent)
  | httpFail (detail : Option String)
  | abortedAfter (events : List SSEEvent)
  | failedAfter (events : List SSEEvent) (message : String)
  deriving DecidableEq

/-- Everything observable about one `streamChat` call:
`controllerAfter` is `this.currentController` once the call settles,
`calls` the callback trace, `result` the resolution or rejection, and
`requests` the fetches issued. -/
structure StreamOutcome where
  controllerAfter : Option Unit
  calls : List CbCall
  result : Except String StreamResult
  requests : List StreamRequest

structure StreamHandler where
  apiUrl : String
  currentController : Option Unit
  deriving DecidableEq

def StreamHandler.streamChat (h : StreamHandler)
    (message sessionId userId : String) (run : StreamRun) : StreamOutcome :=
  let req := streamChatRequest h.apiUrl message sessionId userId
  match run with
  | .success evs =>
      let r := processEvents evs initialStreamState
      { controllerAfter := none
        calls := r.2
        result := .ok
          { response := r.1.fullResponse, sources := r.1.sources
            usedSources := r.1.usedSources, documents := r.1.documents }
        requests := [req] }
  | .httpFail detail =>
      let msg := detail.getD failedConnectMsg
      { controllerAfter := none
        calls := [.onError msg]
        result := .error msg
        requests := [req] }
  | .abortedAfter evs =>
      let r := processEvents evs initialStreamState
      { controllerAfter := none
        calls := r.2
        result := .error cancelledByUserMsg
        requests := [req] }
  | .failedAfter evs msg =>
      let r := processEvents evs initialStreamState
      { controllerAfter := none
        calls := r.2 ++ [.onError msg]
        result := .error msg
        requests := [req] }

/-- `cancel()`: abort and clear the controller when one is in flight
(the returned boolean records whether `abort()` was called). -/
def StreamHandler.cancel (h : StreamHandler) : StreamHandler × Bool :=
  match h.currentController with
  | some _ => ({ h with currentController := none }, true)
  | none => (h, false)

def StreamHandler.isStreaming (h : StreamHandler) : Bool :=
  h.currentController.isSome

/-- The `text` fields of the `chunk` events, in order. -/
def chunkTexts : List SSEEvent → List String
  | [] => []
  | .chunk t :: rest => t :: chunkTexts rest
  | _ :: rest => chunkTexts rest

/-- The arguments of the `onChunk` invocations, in order. -/
def onChunkTexts : List CbCall → List String
  | [] => []
  | .onChunk t :: rest => t :: onChunkTexts rest
  | _ :: rest => onChunkTexts rest

def concatStrings : List String → String
  | [] => ""
  | s :: rest => s ++ concatStrings rest

/-! ## `saveSettings` validation (`settings.js`) -/

inductive MsgKind where
  | errorKind
  | successKind
  deriving DecidableEq

/-- The side effects of one `saveSettings` run, in order. -/
inductive SaveEffect where
  | showMessage (text : String) (kind : MsgKind)
  | chromeStorageSet
  | fetchPost (url : String)
  deriving DecidableEq

/-- The required AI-model fields of the settings form (DOM `.value`
strings are empty when unfilled; an empty string is the only falsy
string). -/
structure SettingsForm where
  llm_provider : String
  llm_model : String
  llm_api_key : String
  enable_web_search : Bool
  use_streaming : Bool
  deriving DecidableEq

def requiredFieldsMsg : String :=
  "Please fill in all required AI Model fields"

def savedOkMsg : String := "Settings saved successfully!"

def saveFailedMsg : String := "Failed to save settings to backend"

def settingsPath : String := "/api/settings?user_id="

/-- `saveSettings`: validate the required fields, then write to
`chrome.storage` and `POST` the settings to the backend; `backendOk`
models `response.ok` of that fetch. -/
def saveSettings (s : SettingsForm) (apiUrl userId : String)
    (backendOk : Bool) : List SaveEffect :=
  if s.llm_provider = "" ∨ s.llm_model = "" ∨ s.llm_api_key = "" then
    [.showMessage requiredFieldsMsg .errorKind]
  else
    [.chromeStorageSet, .fetchPost (apiUrl ++ settingsPath ++ userId)] ++
      (if backendOk then [.showMessage savedOkMsg .successKind]
       else [.showMessage saveFailedMsg .errorKind])

/-! ## Concrete sample values used by witnesses and counterexamples -/

def qw : String := "q"

def sw : String := "s"

def kA : String := "a"

def urlW : String := "http://localhost:8000"

def bw : String := "http://api"

def msgW : String := "hello"

def sidW : String := "session-1"

def uidW : String := "user-1"

def errBoom : String := "boom"

def chunkHi : String := "hi"

def emptyStr : String := ""

def modelW : String := "gpt-4o"

def keyW : String := "sk-test"

def hW : StreamHandler := { apiUrl := urlW, currentController := none }

def hS : StreamHandler := { apiUrl := urlW, currentController := some () }

def formW : SettingsForm :=
  { llm_provider := emptyStr, llm_model := modelW, llm_api_key := keyW
    enable_web_search := true, use_streaming := true }

def mW : CacheManager Nat :=
  { cache := [(kA, { data := 1, createdAt := 0, lastAccessed := 5
                     expiresAt := 9 })]
    maxSize := 1, ttl := 10, enabled := true }

def evsW : List SSEEvent :=
  [SSEEvent.start, SSEEvent.chunk msgW, SSEEvent.chunk chunkHi,
    SSEEvent.doneEv none none none]

def sampleEsc : List Char := "a&b".toList

def sampleEscTail : List Char := "amp;b".toList

/-! # Theorems -/

/-! ## Association-list lemmas -/

theorem lookupKey_eq_none_iff {β : Type} (l : List (String × β)) (k : String) :
    lookupKey l k = none ↔ k ∉ l.map Prod.fst := by
  induction l with
  | nil => simp [lookupKey]
  | cons p rest ih =>
      obtain ⟨k1, v⟩ := p
      by_cases h : k1 = k
      · subst h
        simp [lookupKey]
      · simp [lookupKey, h, ih, Ne.symm h]

theorem hasKey_eq_false_iff {β : Type} (l : List (String × β)) (k : String) :
    hasKey l k = false ↔ k ∉ l.map Prod.fst := by
  rw [← lookupKey_eq_none_iff]
  unfold hasKey
  cases lookupKey l k <;> simp

theorem lookupKey_mem {β : Type} {l : List (String × β)} {k : String} {v : β}
    (h : lookupKey l k = some v) : (k, v) ∈ l := by
  induction l with
  | nil => simp [lookupKey] at h
  | cons p rest ih =>
      obtain ⟨k1, w⟩ := p
      by_cases hk : k1 = k
      · subst hk
        simp [lookupKey] at h
        subst h
        exact List.mem_cons_self _ _
      · simp [lookupKey, hk] at h
        exact List.mem_cons_of_mem _ (ih h)

theorem lookupKey_of_mem_nodup {β : Type} {l : List (String × β)} {k : String}
    {v : β} (hmem : (k, v) ∈ l) (hnd : (l.map Prod.fst).Nodup) :
    lookupKey l k = some v := by
  induction l with
  | nil => simp at hmem
  | cons p rest ih =>
      obtain ⟨k1, w⟩ := p
      simp only [List.map_cons, List.nodup_cons] at hnd
      rcases List.mem_cons.mp hmem with heq | htail
      · cases heq
        simp [lookupKey]
      · have hk : k1 ≠ k := by
          intro h
          subst h
          exact hnd.1 (List.mem_map.mpr ⟨(k1, v), htail, rfl⟩)
        simp [lookupKey, hk]
        exact ih htail hnd.2

theorem lookupKey_mapSet_self {β : Type} (l : List (String × β)) (k : String)
    (v : β) : lookupKey (mapSet l k v) k = some v := by
  induction l with
  | nil => simp [mapSet, lookupKey]
  | cons p rest ih =>
      obtain ⟨k1, w⟩ := p
      by_cases hk : k1 = k
      · simp [mapSet, hk, lookupKey]
      · simp [mapSet, hk, lookupKey, ih]

theorem lookupKey_mapSet_ne {β : Type} (l : List (String × β)) (k k2 : String)
    (v : β) (hne : k2 ≠ k) : lookupKey (mapSet l k v) k2 = lookupKey l k2 := by
  induction l with
  | nil => simp [mapSet, lookupKey, Ne.symm hne]
  | cons p rest ih =>
      obtain ⟨k1, w⟩ := p
      by_cases hk : k1 = k
      · subst hk
        simp [mapSet, lookupKey, Ne.symm hne, hne]
      · by_cases hk2 : k1 = k2
        · subst hk2
          simp [mapSet, hne, lookupKey]
        · simp [mapSet, hk, lookupKey, hk2, ih]

theorem mapSet_keys_of_has {β : Type} (l : List (String × β)) (k : String)
    (v : β) (h : hasKey l k = true) :
    (mapSet l k v).map Prod.fst = l.map Prod.fst := by
  induction l with
  | nil => simp [hasKey, lookupKey] at h
  | cons p rest ih =>
      obtain ⟨k1, w⟩ := p
      by_cases hk : k1 = k
      · simp [mapSet, hk]
      · simp only [hasKey, lookupKey, if_neg hk] at h
        simp [mapSet, hk, ih h]

theorem mapSet_length_of_has {β : Type} (l : List (String × β)) (k : String)
    (v : β) (h : hasKey l k = true) : (mapSet l k v).length = l.length := by
  have := congrArg List.length (mapSet_keys_of_has l k v h)
  simpa using this

theorem mapSet_length_of_not {β : Type} (l : List (String × β)) (k : String)
    (v : β) (h : hasKey l k = false) :
    (mapSet l k v).length = l.length + 1 := by
  induction l with
  | nil => simp [mapSet]
  | cons p rest ih =>
      obtain ⟨k1, w⟩ := p
      by_cases hk : k1 = k
      · simp [hasKey, lookupKey, hk] at h
      · simp only [hasKey, lookupKey, if_neg hk] at h
        simp [mapSet, hk, ih h]

theorem mapDelete_sublist {β : Type} (l : List (String × β)) (k : String) :
    (mapDelete l k).Sublist l := by
  induction l with
  | nil => simp [mapDelete]
  | cons p rest ih =>
      obtain ⟨k1, v⟩ := p
      by_cases hk : k1 = k
      · simp only [mapDelete, if_pos hk]
        exact (List.sublist_cons_self _ _)
      · simp only [mapDelete, if_neg hk]
        exact ih.cons₂ _

theorem mapDelete_length_of_mem {β : Type} (l : List (String × β)) (k : String)
    (h : k ∈ l.map Prod.fst) : (mapDelete l k).length + 1 = l.length := by
  induction l with
  | nil => simp at h
  | cons p rest ih =>
      obtain ⟨k1, v⟩ := p
      by_cases hk : k1 = k
      · simp [mapDelete, hk]
      · simp only [List.map_cons, List.mem_cons] at h
        rcases h with h | h
        · exact absurd h.symm hk
        · simp only [mapDelete, if_neg hk, List.length_cons]
          rw [← ih h]

theorem lookupKey_mapDelete_self {β : Type} (l : List (String × β))
    (k : String) (hnd : (l.map Prod.fst).Nodup) :
    lookupKey (mapDelete l k) k = none := by
  induction l with
  | nil => simp [mapDelete, lookupKey]
  | cons p rest ih =>
      obtain ⟨k1, v⟩ := p
      simp only [List.map_cons, List.nodup_cons] at hnd
      by_cases hk : k1 = k
      · subst hk
        simp only [mapDelete, if_pos rfl]
        exact (lookupKey_eq_none_iff rest k1).mpr hnd.1
      · simp only [mapDelete, if_neg hk, lookupKey, if_neg hk]
        exact ih hnd.2

theorem mapSet_keys_of_not {β : Type} (l : List (String × β)) (k : String)
    (v : β) (h : hasKey l k = false) :
    (mapSet l k v).map Prod.fst = l.map Prod.fst ++ [k] := by
  induction l with
  | nil => simp [mapSet]
  | cons p rest ih =>
      obtain ⟨k1, w⟩ := p
      by_cases hk : k1 = k
      · simp [hasKey, lookupKey, hk] at h
      · simp only [hasKey, lookupKey, if_neg hk] at h
        simp [mapSet, hk, ih h]

theorem mapSet_nodup {β : Type} (l : List (String × β)) (k : String) (v : β)
    (hnd : (l.map Prod.fst).Nodup) :
    ((mapSet l k v).map Prod.fst).Nodup := by
  by_cases h : hasKey l k
  · rw [mapSet_keys_of_has l k v h]
    exact hnd
  · have h2 : hasKey l k = false := by simpa using h
    rw [mapSet_keys_of_not l k v h2]
    rw [List.nodup_append]
    refine ⟨hnd, by simp, ?_⟩
    intro a ha hb
    simp only [List.mem_singleton] at hb
    subst hb
    exact (hasKey_eq_false_iff l a).mp h2 ha

theorem mapDelete_nodup {β : Type} (l : List (String × β)) (k : String)
    (hnd : (l.map Prod.fst).Nodup) :
    ((mapDelete l k).map Prod.fst).Nodup :=
  ((mapDelete_sublist l k).map Prod.fst).nodup hnd

theorem mem_mapSet {β : Type} {l : List (String × β)} {k : String} {v : β}
    {p : String × β} (h : p ∈ mapSet l k v) : p = (k, v) ∨ p ∈ l := by
  induction l with
  | nil => simpa [mapSet] using h
  | cons kv rest ih =>
      obtain ⟨k1, w⟩ := kv
      by_cases hk : k1 = k
      · simp only [mapSet, if_pos hk, List.mem_cons] at h
        rcases h with h | h
        · exact Or.inl h
        · exact Or.inr (List.mem_cons_of_mem _ h)
      · simp only [mapSet, if_neg hk, List.mem_cons] at h
        rcases h with h | h
        · exact Or.inr (h ▸ List.mem_cons_self _ _)
        · rcases ih h with h2 | h2
          · exact Or.inl h2
          · exact Or.inr (List.mem_cons_of_mem _ h2)

/-! ## `findOldestAux` and eviction lemmas -/

theorem findOldestAux_isSome {α : Type} (l : List (String × CacheEntry α))
    (p : String × Nat) : ∃ q, findOldestAux l (some p) = some q := by
  induction l generalizing p with
  | nil => exact ⟨p, rfl⟩
  | cons kv rest ih =>
      obtain ⟨k, v⟩ := kv
      obtain ⟨k0, t0⟩ := p
      by_cases h : v.lastAccessed < t0
      · simpa [findOldestAux, h] using ih (k, v.lastAccessed)
      · simpa [findOldestAux, h] using ih (k0, t0)

theorem findOldestAux_min {α : Type} (l : List (String × CacheEntry α))
    (p q : String × Nat) (h : findOldestAux l (some p) = some q) :
    q.2 ≤ p.2 ∧ ∀ kv ∈ l, q.2 ≤ (kv.2 : CacheEntry α).lastAccessed := by
  induction l generalizing p with
  | nil =>
      simp only [findOldestAux] at h
      cases h
      exact ⟨le_refl _, by simp⟩
  | cons kv rest ih =>
      obtain ⟨k, v⟩ := kv
      obtain ⟨k0, t0⟩ := p
      by_cases hlt : v.lastAccessed < t0
      · simp only [findOldestAux, if_pos hlt] at h
        obtain ⟨h1, h2⟩ := ih (k, v.lastAccessed) h
        refine ⟨le_trans h1 (le_of_lt hlt), ?_⟩
        intro kv2 hm
        rcases List.mem_cons.mp hm with rfl | hm2
        · exact h1
        · exact h2 kv2 hm2
      · simp only [findOldestAux, if_neg hlt] at h
        obtain ⟨h1, h2⟩ := ih (k0, t0) h
        refine ⟨h1, ?_⟩
        intro kv2 hm
        rcases List.mem_cons.mp hm with rfl | hm2
        · exact le_trans h1 (not_lt.mp hlt)
        · exact h2 kv2 hm2

theorem findOldestAux_mem {α : Type} (l : List (String × CacheEntry α))
    (q : String × Nat) :
    ∀ acc, findOldestAux l acc = some q →
      acc = some q ∨
        ∃ e, (q.1, e) ∈ l ∧ (e : CacheEntry α).lastAccessed = q.2 := by
  induction l with
  | nil =>
      intro acc h
      simp only [findOldestAux] at h
      exact Or.inl h
  | cons kv rest ih =>
      intro acc h
      obtain ⟨k, v⟩ := kv
      match acc with
      | none =>
          simp only [findOldestAux] at h
          rcases ih _ h with heq | ⟨e, hm, ht⟩
          · cases heq
            exact Or.inr ⟨v, List.mem_cons_self _ _, rfl⟩
          · exact Or.inr ⟨e, List.mem_cons_of_mem _ hm, ht⟩
      | some (k0, t0) =>
          by_cases hlt : v.lastAccessed < t0
          · simp only [findOldestAux, if_pos hlt] at h
            rcases ih _ h with heq | ⟨e, hm, ht⟩
            · cases heq
              exact Or.inr ⟨v, List.mem_cons_self _ _, rfl⟩
            · exact Or.inr ⟨e, List.mem_cons_of_mem _ hm, ht⟩
          · simp only [findOldestAux, if_neg hlt] at h
            rcases ih _ h with heq | ⟨e, hm, ht⟩
            · exact Or.inl heq
            · exact Or.inr ⟨e, List.mem_cons_of_mem _ hm, ht⟩

theorem evictLRUCache_nodup {α : Type} (l : List (String × CacheEntry α))
    (hnd : (l.map Prod.fst).Nodup) :
    ((evictLRUCache l).map Prod.fst).Nodup := by
  unfold evictLRUCache
  cases h : findOldestAux l none with
  | none => exact hnd
  | some kt =>
      by_cases h2 : kt.1 = ""
      · simpa [h2] using hnd
      · simpa [h2] using mapDelete_nodup l kt.1 hnd

/-! ## CacheManager lemmas -/

/-- When enabled, the cache after `set` is the (possibly evicted) cache
with the fresh entry stored. -/
theorem CacheManager.set_cache_eq {α : Type} (m : CacheManager α)
    (query : String) (data : α) (sessionId : String) (now : Nat)
    (hen : m.enabled = true) :
    (m.set query data sessionId now).cache =
      mapSet
        (if m.maxSize ≤ m.cache.length ∧
            hasKey m.cache (generateKey query sessionId) = false then
          evictLRUCache m.cache
        else m.cache)
        (generateKey query sessionId)
        ⟨data, now, now, now + m.ttl⟩ := by
  unfold CacheManager.set
  rw [hen]
  simp only [Bool.true_eq_false, if_false, CacheManager.evictLRU]
  by_cases h : m.maxSize ≤ m.cache.length ∧
      hasKey m.cache (generateKey query sessionId) = false
  · simp [h]
  · simp [h]

theorem CacheManager.set_enabled {α : Type} (m : CacheManager α)
    (query : String) (data : α) (sessionId : String) (now : Nat) :
    (m.set query data sessionId now).enabled = m.enabled := by
  unfold CacheManager.set
  by_cases hen : m.enabled = false
  · simp [hen]
  · simp only [hen, if_false]
    by_cases h : m.maxSize ≤ m.cache.length ∧
        hasKey m.cache (generateKey query sessionId) = false
    · simp [h, CacheManager.evictLRU, hen]
    · simp [h, hen]

theorem CacheManager.set_ttl {α : Type} (m : CacheManager α)
    (query : String) (data : α) (sessionId : String) (now : Nat) :
    (m.set query data sessionId now).ttl = m.ttl := by
  unfold CacheManager.set
  by_cases hen : m.enabled = false
  · simp [hen]
  · simp only [hen, if_false]
    by_cases h : m.maxSize ≤ m.cache.length ∧
        hasKey m.cache (generateKey query sessionId) = false
    · simp [h, CacheManager.evictLRU, hen]
    · simp [h, hen]

theorem CacheManager.set_maxSize {α : Type} (m : CacheManager α)
    (query : String) (data : α) (sessionId : String) (now : Nat) :
    (m.set query data sessionId now).maxSize = m.maxSize := by
  unfold CacheManager.set
  by_cases hen : m.enabled = false
  · simp [hen]
  · simp only [hen, if_false]
    by_cases h : m.maxSize ≤ m.cache.length ∧
        hasKey m.cache (generateKey query sessionId) = false
    · simp [h, CacheManager.evictLRU, hen]
    · simp [h, hen]

theorem CacheManager.set_cache_nodup {α : Type} (m : CacheManager α)
    (query : String) (data : α) (sessionId : String) (now : Nat)
    (hnd : (m.cache.map Prod.fst).Nodup) :
    (((m.set query data sessionId now).cache).map Prod.fst).Nodup := by
  by_cases hen : m.enabled = true
  · rw [CacheManager.set_cache_eq m query data sessionId now hen]
    by_cases h : m.maxSize ≤ m.cache.length ∧
        hasKey m.cache (generateKey query sessionId) = false
    · rw [if_pos h]
      exact mapSet_nodup _ _ _ (evictLRUCache_nodup _ hnd)
    · rw [if_neg h]
      exact mapSet_nodup _ _ _ hnd
  · have hen2 : m.enabled = false := by
      cases h : m.enabled
      · rfl
      · exact absurd h hen
    unfold CacheManager.set
    rw [hen2]
    simpa using hnd

/-- **C9.** For every entry stored by `CacheManager.set`, a
`CacheManager.get` with the same query and session performed after the
entry's `expiresAt` time (set time + `ttl`, default 5 minutes = 300000 ms)
returns `null` and removes the entry from the cache, while a `get` before
`expiresAt` returns exactly the stored data and updates the entry's
`lastAccessed` time. -/
theorem CacheManager.get_ttl_spec {α : Type} (m : CacheManager α)
    (query sessionId : String) (data : α) (t0 tg : Nat)
    (hen : m.enabled = true) (hnd : (m.cache.map Prod.fst).Nodup) :
    (t0 + m.ttl < tg →
      ((m.set query data sessionId t0).get query sessionId tg).1 = none ∧
      lookupKey ((m.set query data sessionId t0).get query sessionId
          tg).2.cache (generateKey query sessionId) = none) ∧
    (tg < t0 + m.ttl →
      ((m.set query data sessionId t0).get query sessionId tg).1 =
        some data ∧
      lookupKey ((m.set query data sessionId t0).get query sessionId
          tg).2.cache (generateKey query sessionId) =
        some ⟨data, t0, tg, t0 + m.ttl⟩) ∧
    (CacheManager.init α none none none).ttl = 5 * 60 * 1000 := by
  have hset := CacheManager.set_cache_eq m query data sessionId t0 hen
  have hlook : lookupKey (m.set query data sessionId t0).cache
      (generateKey query sessionId) =
      some ⟨data, t0, t0, t0 + m.ttl⟩ := by
    rw [hset]
    exact lookupKey_mapSet_self _ _ _
  have hnd2 := CacheManager.set_cache_nodup m query data sessionId t0 hnd
  have henS : (m.set query data sessionId t0).enabled = true := by
    rw [CacheManager.set_enabled]
    exact hen
  refine ⟨?_, ?_, rfl⟩
  · intro hexp
    unfold CacheManager.get
    rw [henS]
    simp only [Bool.true_eq_false, if_false, hlook]
    simp only [if_pos hexp]
    refine ⟨by simp, ?_⟩
    simpa using lookupKey_mapDelete_self _ _ hnd2
  · intro hfresh
    unfold CacheManager.get
    rw [henS]
    simp only [Bool.true_eq_false, if_false, hlook]
    have hnexp : ¬ ((⟨data, t0, t0, t0 + m.ttl⟩ :
        CacheEntry α).expiresAt < tg) := by
      simp only [not_lt]
      exact le_of_lt hfresh
    simp only [if_neg hnexp]
    refine ⟨by simp, ?_⟩
    simpa using lookupKey_mapSet_self _ _ _

/-- C9 witness at concrete inputs. -/
theorem CacheManager.get_ttl_witness :
    (((CacheManager.init Nat none none none).set qw 7 sw 100).get qw sw
        200).1 = some 7 ∧
    (((CacheManager.init Nat none none none).set qw 7 sw 100).get qw sw
        400000).1 = none := by
  have h := CacheManager.get_ttl_spec (CacheManager.init Nat none none none)
    qw sw 7 100 200 rfl (by simp [CacheManager.init])
  have h2 := CacheManager.get_ttl_spec (CacheManager.init Nat none none none)
    qw sw 7 100 400000 rfl (by simp [CacheManager.init])
  refine ⟨(h.2.1 ?_).1, (h2.1 ?_).1⟩
  · show 200 < 100 + (CacheManager.init Nat none none none).ttl
    norm_num [CacheManager.init, jsOrNat]
  · show 100 + (CacheManager.init Nat none none none).ttl < 400000
    norm_num [CacheManager.init, jsOrNat]

/-- **C2.** For every cache state and every eviction triggered by
inserting a new key when the cache holds `maxSize` entries, the evicted
entry has a last-accessed time less than or equal to that of every
surviving entry, and after the insertion the cache size never exceeds
`maxSize` (`CacheManager.set` / `CacheManager.evictLRU`).  The
hypotheses state the claim's premise: caching enabled, a full cache of
distinct non-empty keys (every key the class ever stores is produced by
`generateKey` and thus contains a colon), and a fresh key. -/
theorem CacheManager.set_eviction_spec {α : Type} (m : CacheManager α)
    (query sessionId : String) (data : α) (now : Nat)
    (hen : m.enabled = true)
    (hnd : (m.cache.map Prod.fst).Nodup)
    (hfull : m.cache.length = m.maxSize)
    (hpos : 1 ≤ m.maxSize)
    (hnew : hasKey m.cache (generateKey query sessionId) = false)
    (hkeys : ∀ p ∈ m.cache, p.1 ≠ "") :
    (m.set query data sessionId now).cache.length ≤ m.maxSize ∧
    ∃ ek ee, lookupKey m.cache ek = some ee ∧
      hasKey (m.set query data sessionId now).cache ek = false ∧
      ∀ p ∈ (m.set query data sessionId now).cache,
        p.1 ≠ generateKey query sessionId →
          (ee : CacheEntry α).lastAccessed ≤ p.2.lastAccessed := by
  have hcond : m.maxSize ≤ m.cache.length ∧
      hasKey m.cache (generateKey query sessionId) = false :=
    ⟨le_of_eq hfull.symm, hnew⟩
  have hset := CacheManager.set_cache_eq m query data sessionId now hen
  rw [if_pos hcond] at hset
  obtain ⟨kv, rest, hcons⟩ : ∃ kv rest, m.cache = kv :: rest := by
    cases hc : m.cache with
    | nil =>
        rw [hc] at hfull
        simp at hfull
        omega
    | cons kv rest => exact ⟨kv, rest, rfl⟩
  obtain ⟨k0, v0⟩ := kv
  obtain ⟨q0, hq0⟩ := findOldestAux_isSome rest (k0, v0.lastAccessed)
  have hfind : findOldestAux m.cache none = some q0 := by
    rw [hcons]
    simpa [findOldestAux] using hq0
  obtain ⟨hmin1, hmin2⟩ := findOldestAux_min rest _ q0 hq0
  have hmemq : ∃ e, (q0.1, e) ∈ m.cache ∧
      (e : CacheEntry α).lastAccessed = q0.2 := by
    rcases findOldestAux_mem m.cache q0 none hfind with h | h
    · cases h
    · exact h
  obtain ⟨ee, hmem, hee⟩ := hmemq
  have hekne : q0.1 ≠ "" := hkeys (q0.1, ee) hmem
  have hevict : evictLRUCache m.cache = mapDelete m.cache q0.1 := by
    unfold evictLRUCache
    rw [hfind]
    simp [hekne]
  rw [hevict] at hset
  have hminAll : ∀ p ∈ m.cache, q0.2 ≤ (p.2 : CacheEntry α).lastAccessed := by
    intro p hp
    rw [hcons] at hp
    rcases List.mem_cons.mp hp with rfl | hp2
    · exact hmin1
    · exact hmin2 p hp2
  have hkeyMem : q0.1 ∈ m.cache.map Prod.fst :=
    List.mem_map.mpr ⟨(q0.1, ee), hmem, rfl⟩
  have hkeyNotMem : generateKey query sessionId ∉ m.cache.map Prod.fst :=
    (hasKey_eq_false_iff _ _).mp hnew
  have hkeyNotDel : hasKey (mapDelete m.cache q0.1)
      (generateKey query sessionId) = false := by
    rw [hasKey_eq_false_iff]
    intro hmem2
    exact hkeyNotMem
      (((mapDelete_sublist m.cache q0.1).map Prod.fst).subset hmem2)
  have hne : q0.1 ≠ generateKey query sessionId := by
    intro h
    rw [h] at hkeyMem
    exact hkeyNotMem hkeyMem
  refine ⟨?_, q0.1, ee, lookupKey_of_mem_nodup hmem hnd, ?_, ?_⟩
  · rw [hset, mapSet_length_of_not _ _ _ hkeyNotDel,
      mapDelete_length_of_mem _ _ hkeyMem, hfull]
  · rw [hset]
    unfold hasKey
    rw [lookupKey_mapSet_ne _ _ _ _ hne,
      lookupKey_mapDelete_self _ _ hnd]
    rfl
  · intro p hp hpne
    rw [hset] at hp
    rcases mem_mapSet hp with rfl | hp2
    · exact absurd rfl hpne
    · have hpm : p ∈ m.cache := (mapDelete_sublist m.cache q0.1).subset hp2
      rw [hee]
      exact hminAll p hpm

/-- C2 witness at concrete inputs: a full one-entry cache evicts down to
its capacity. -/
theorem CacheManager.set_eviction_witness :
    (mW.set qw 7 sw 3).cache.length ≤ mW.maxSize :=
  (CacheManager.set_eviction_spec mW qw sw 7 3 rfl (by decide) rfl
    (by decide) (by decide) (by decide)).1

/-- **C6.** For every query string, data value, and session id, calling
`CacheManager.set` twice with the same arguments leaves the cache with
the same key set and the same stored data as after the first call; only
the `createdAt`, `lastAccessed`, and `expiresAt` timestamps may advance,
and no duplicate entry is created. -/
theorem CacheManager.set_idempotent_spec {α : Type} (m : CacheManager α)
    (query sessionId : String) (data : α) (t1 t2 : Nat) :
    (((m.set query data sessionId t1).set query data sessionId
        t2).cache.map Prod.fst =
      (m.set query data sessionId t1).cache.map Prod.fst) ∧
    (((m.set query data sessionId t1).set query data sessionId
        t2).cache.length =
      (m.set query data sessionId t1).cache.length) ∧
    (∀ k, (lookupKey ((m.set query data sessionId t1).set query data
          sessionId t2).cache k).map CacheEntry.data =
        (lookupKey (m.set query data sessionId t1).cache k).map
          CacheEntry.data) ∧
    (m.enabled = true →
      lookupKey ((m.set query data sessionId t1).set query data sessionId
          t2).cache (generateKey query sessionId) =
        some ⟨data, t2, t2, t2 + m.ttl⟩) := by
  by_cases hen : m.enabled = true
  · have hset1 := CacheManager.set_cache_eq m query data sessionId t1 hen
    have hen1 : (m.set query data sessionId t1).enabled = true := by
      rw [CacheManager.set_enabled]
      exact hen
    have hlook1 : lookupKey (m.set query data sessionId t1).cache
        (generateKey query sessionId) = some ⟨data, t1, t1, t1 + m.ttl⟩ := by
      rw [hset1]
      exact lookupKey_mapSet_self _ _ _
    have hhas1 : hasKey (m.set query data sessionId t1).cache
        (generateKey query sessionId) = true := by
      unfold hasKey
      rw [hlook1]
      rfl
    have hset2 := CacheManager.set_cache_eq (m.set query data sessionId t1)
      query data sessionId t2 hen1
    have hcond2 : ¬ ((m.set query data sessionId t1).maxSize ≤
        (m.set query data sessionId t1).cache.length ∧
        hasKey (m.set query data sessionId t1).cache
          (generateKey query sessionId) = false) := by
      intro hc
      rw [hhas1] at hc
      exact absurd hc.2 (by simp)
    rw [if_neg hcond2] at hset2
    rw [CacheManager.set_ttl] at hset2
    refine ⟨?_, ?_, ?_, ?_⟩
    · rw [hset2]
      exact mapSet_keys_of_has _ _ _ hhas1
    · rw [hset2]
      exact mapSet_length_of_has _ _ _ hhas1
    · intro k
      by_cases hk : k = generateKey query sessionId
      · subst hk
        rw [hset2, lookupKey_mapSet_self _ _ _, hlook1]
        rfl
      · rw [hset2, lookupKey_mapSet_ne _ _ _ _ hk]
    · intro _
      rw [hset2]
      exact lookupKey_mapSet_self _ _ _
  · have hen2 : m.enabled = false := by
      cases h : m.enabled
      · rfl
      · exact absurd h hen
    have hs1 : m.set query data sessionId t1 = m := by
      unfold CacheManager.set
      rw [hen2]
      simp
    have hs2 : m.set query data sessionId t2 = m := by
      unfold CacheManager.set
      rw [hen2]
      simp
    rw [hs1, hs2]
    exact ⟨rfl, rfl, fun k => rfl, fun h => absurd h hen⟩

/-- C6 witness at concrete inputs. -/
theorem CacheManager.set_idempotent_witness :
    lookupKey (((CacheManager.init Nat none none none).set qw 7 sw 1).set
        qw 7 sw 2).cache (generateKey qw sw) =
      some ⟨7, 2, 2, 2 + (CacheManager.init Nat none none none).ttl⟩ :=
  (CacheManager.set_idempotent_spec (CacheManager.init Nat none none none)
    qw sw 7 1 2).2.2.2 rfl

/-! ## APIClient retry lemmas -/

theorem requestFailedMsg_ne_rate (status : Nat) :
    requestFailedMsg status ≠ rateLimitedMsg := by
  intro h
  have hl : (requestFailedMsg status).length = rateLimitedMsg.length := by
    rw [h]
  rw [requestFailedMsg, String.length_append] at hl
  have h27 : requestFailedPre.length = 27 := rfl
  have h12 : rateLimitedMsg.length = 12 := rfl
  rw [h27, h12] at hl
  omega

theorem requestFailedMsg_ne_server (status : Nat) :
    requestFailedMsg status ≠ serverErrorMsg := by
  intro h
  have hl : (requestFailedMsg status).length = serverErrorMsg.length := by
    rw [h]
  rw [requestFailedMsg, String.length_append] at hl
  have h27 : requestFailedPre.length = 27 := rfl
  have h12 : serverErrorMsg.length = 12 := rfl
  rw [h27, h12] at hl
  omega

/-- **C5 (amended).**  `APIClient.request` retries (recursing with
`retryCount + 1`) exactly when the attempt threw an error whose message
is the sentinel `RATE_LIMITED` or `SERVER_ERROR` or whose name is
`TypeError`, and `retryCount < maxRetries` (3).  In terms of the
response, that is: a 429 status, a status ≥ 500, a network error — or
(deviating from the claim as stated) any other non-ok status whose JSON
`detail` field is literally `"RATE_LIMITED"` or `"SERVER_ERROR"`, since
the retry decision is made on the sentinel message string, not on the
status.  All other responses are rejected immediately. -/
theorem APIClient.retry_spec (u : String) :
    (∀ (status : Nat) (detail : Option String) (rc : Nat)
        (rest : List ReqOutcome), respOk status = true →
      (APIClient.init u).request (.response status detail :: rest) rc =
        .success status) ∧
    (∀ (o : ReqOutcome) (e : JsError) (rc : Nat) (rest : List ReqOutcome),
      thrownError o = some e →
      shouldRetry (APIClient.init u) e rc = true →
      (APIClient.init u).request (o :: rest) rc =
        (APIClient.init u).request rest (rc + 1)) ∧
    (∀ (o : ReqOutcome) (e : JsError) (rc : Nat) (rest : List ReqOutcome),
      thrownError o = some e →
      shouldRetry (APIClient.init u) e rc = false →
      (APIClient.init u).request (o :: rest) rc = .failure e) ∧
    (∀ (o : ReqOutcome) (e : JsError) (rc : Nat), thrownError o = some e →
      (shouldRetry (APIClient.init u) e rc = true ↔
        (rc < 3 ∧
          ((∃ msg, o = .netError msg) ∨
            ∃ status detail, o = .response status detail ∧
              respOk status = false ∧
              (status = 429 ∨ 500 ≤ status ∨
                detail = some rateLimitedMsg ∨
                detail = some serverErrorMsg))))) := by
  have hretry : ∀ (e : JsError) (rc : Nat),
      shouldRetry (APIClient.init u) e rc = true ↔
        ((e.message = rateLimitedMsg ∨ e.message = serverErrorMsg ∨
          e.name = typeErrorName) ∧ rc < 3) := by
    intro e rc
    simp [shouldRetry, APIClient.init, Bool.and_eq_true, Bool.or_eq_true,
      beq_iff_eq, decide_eq_true_iff, or_assoc]
  refine ⟨?_, ?_, ?_, ?_⟩
  · intro status detail rc rest hok
    unfold APIClient.request
    simp [thrownError, hok]
  · intro o e rc rest hth hsr
    cases o with
    | response status detail =>
        simp only [APIClient.request, hth, hsr]
        simp
    | netError msg =>
        have he : e = ⟨typeErrorName, msg⟩ := by
          simpa [thrownError] using hth.symm
        subst he
        simp only [APIClient.request, hsr]
        simp
  · intro o e rc rest hth hsr
    cases o with
    | response status detail =>
        simp only [APIClient.request, hth, hsr]
        simp
    | netError msg =>
        have he : e = ⟨typeErrorName, msg⟩ := by
          simpa [thrownError] using hth.symm
        subst he
        simp only [APIClient.request, hsr]
        simp
  · intro o e rc hth
    rw [hretry e rc]
    cases o with
    | netError msg =>
        have he : e = ⟨typeErrorName, msg⟩ := by
          simpa [thrownError] using hth.symm
        subst he
        simp [and_comm]
    | response status detail =>
        have hok : respOk status = false := by
          by_cases h : respOk status = true
          · simp [thrownError, h] at hth
          · simpa using h
        rw [thrownError] at hth
        rw [hok] at hth
        simp only [Bool.false_eq_true, if_false] at hth
        by_cases h429 : status = 429
        · rw [if_pos h429] at hth
          cases hth
          constructor
          · intro ⟨hmsg, hrc⟩
            exact ⟨hrc, Or.inr ⟨status, detail, rfl, hok, Or.inl h429⟩⟩
          · intro ⟨hrc, _⟩
            exact ⟨Or.inl rfl, hrc⟩
        · rw [if_neg h429] at hth
          by_cases h500 : 500 ≤ status
          · rw [if_pos h500] at hth
            cases hth
            constructor
            · intro ⟨hmsg, hrc⟩
              exact ⟨hrc,
                Or.inr ⟨status, detail, rfl, hok, Or.inr (Or.inl h500)⟩⟩
            · intro ⟨hrc, _⟩
              exact ⟨Or.inr (Or.inl rfl), hrc⟩
          · rw [if_neg h500] at hth
            have hdetail : e.message = detail.getD authFailedMsg ∨
                e.message = detail.getD (requestFailedMsg status) := by
              by_cases hauth : status = 401 ∨ status = 403
              · rw [if_pos hauth] at hth
                cases hth
                exact Or.inl rfl
              · rw [if_neg hauth] at hth
                cases hth
                exact Or.inr rfl
            have hname : e.name = plainErrorName := by
              by_cases hauth : status = 401 ∨ status = 403
              · rw [if_pos hauth] at hth
                cases hth
                rfl
              · rw [if_neg hauth] at hth
                cases hth
                rfl
            have hnameTE : ¬ e.name = typeErrorName := by
              rw [hname]
              decide
            have hmsgIff : (e.message = rateLimitedMsg ∨
                e.message = serverErrorMsg) ↔
                (detail = some rateLimitedMsg ∨
                 detail = some serverErrorMsg) := by
              cases detail with
              | none =>
                  simp only [Option.getD_none] at hdetail
                  constructor
                  · intro hm
                    exfalso
                    rcases hdetail with hd | hd <;> rw [hd] at hm <;>
                      rcases hm with hm | hm
                    · exact absurd hm (by decide)
                    · exact absurd hm (by decide)
                    · exact requestFailedMsg_ne_rate status hm
                    · exact requestFailedMsg_ne_server status hm
                  · intro hm
                    rcases hm with hm | hm <;> cases hm
              | some dd =>
                  simp only [Option.getD_some] at hdetail
                  rcases hdetail with hd | hd <;> rw [hd] <;>
                    simp [Option.some.injEq]
            constructor
            · intro ⟨hmsg, hrc⟩
              rcases hmsg with hm | hm | hm
              · exact ⟨hrc, Or.inr ⟨status, detail, rfl, hok,
                  Or.inr (Or.inr (hmsgIff.mp (Or.inl hm)))⟩⟩
              · have := hmsgIff.mp (Or.inr hm)
                rcases this with hd | hd
                · exact ⟨hrc, Or.inr ⟨status, detail, rfl, hok,
                    Or.inr (Or.inr (Or.inl hd))⟩⟩
                · exact ⟨hrc, Or.inr ⟨status, detail, rfl, hok,
                    Or.inr (Or.inr (Or.inr hd))⟩⟩
              · exact absurd hm hnameTE
            · intro ⟨hrc, hcase⟩
              rcases hcase with ⟨msg, hmsg⟩ | ⟨s2, d2, heq, hok2, hcase2⟩
              · cases hmsg
              · obtain ⟨hs, hd⟩ : s2 = status ∧ d2 = detail := by
                  cases heq
                  exact ⟨rfl, rfl⟩
                subst hs
                subst hd
                rcases hcase2 with hc | hc | hc | hc
                · exact absurd hc h429
                · exact absurd hc h500
                · refine ⟨?_, hrc⟩
                  have := hmsgIff.mpr (Or.inl hc)
                  rcases this with hm | hm
                  · exact Or.inl hm
                  · exact Or.inr (Or.inl hm)
                · refine ⟨?_, hrc⟩
                  have := hmsgIff.mpr (Or.inr hc)
                  rcases this with hm | hm
                  · exact Or.inl hm
                  · exact Or.inr (Or.inl hm)

/-- C5 counterexample to the claim as stated: a `400` response — a 4xx
status other than 429 — whose JSON `detail` field is the literal sentinel
`"RATE_LIMITED"` is retried rather than rejected immediately: the request
call consumes the next outcome and succeeds. -/
theorem APIClient.retry_status_cex :
    (400 ≠ 429 ∧ 400 < 500) ∧
    (APIClient.init bw).request
        [ReqOutcome.response 400 (some rateLimitedMsg),
          ReqOutcome.response 200 none] 0 =
      RequestResult.success 200 := by
  constructor
  · constructor
    · decide
    · decide
  · rfl

/-- C5 witness at concrete inputs: a 500 is retried once, and the
following 404 is rejected with the thrown error. -/
theorem APIClient.retry_witness :
    (APIClient.init bw).request
        [ReqOutcome.response 500 none, ReqOutcome.response 404 none] 0 =
      RequestResult.failure ⟨plainErrorName, requestFailedMsg 404⟩ := by
  have h := APIClient.retry_spec bw
  have h1 := h.2.1 (ReqOutcome.response 500 none)
    ⟨plainErrorName, serverErrorMsg⟩ 0 [ReqOutcome.response 404 none]
    (by decide) (by decide)
  have h2 := h.2.2.1 (ReqOutcome.response 404 none)
    ⟨plainErrorName, requestFailedMsg 404⟩ 1 [] (by decide) (by decide)
  rw [h1, h2]

/-! ## MessageRenderer lemmas -/

theorem replaceChar_append (pat : Char) (repl a b : List Char) :
    replaceChar pat repl (a ++ b) =
      replaceChar pat repl a ++ replaceChar pat repl b := by
  induction a with
  | nil => simp [replaceChar]
  | cons c rest ih => simp [replaceChar, ih]

theorem escapeHtml_append (a b : List Char) :
    escapeHtml (a ++ b) = escapeHtml a ++ escapeHtml b := by
  simp [escapeHtml, replaceChar_append]

theorem escapeHtml_cons (c : Char) (t : List Char) :
    escapeHtml (c :: t) = escChar c ++ escapeHtml t := by
  have h0 : escapeHtml (c :: t) = escapeHtml [c] ++ escapeHtml t := by
    have hsplit : c :: t = [c] ++ t := rfl
    rw [hsplit, escapeHtml_append]
  rw [h0]
  congr 1
  by_cases h1 : c = '&'
  · subst h1
    decide
  · by_cases h2 : c = '<'
    · subst h2
      decide
    · by_cases h3 : c = '>'
      · subst h3
        decide
      · by_cases h4 : c = quotChar
        · subst h4
          decide
        · by_cases h5 : c = aposChar
          · subst h5
            decide
          · unfold escapeHtml escChar
            simp [replaceChar, h1, h2, h3, h4, h5]

theorem escChar_no_special (c : Char) :
    '<' ∉ escChar c ∧ '>' ∉ escChar c ∧ quotChar ∉ escChar c ∧
      aposChar ∉ escChar c := by
  by_cases h1 : c = '&'
  · subst h1
    decide
  · by_cases h2 : c = '<'
    · subst h2
      decide
    · by_cases h3 : c = '>'
      · subst h3
        decide
      · by_cases h4 : c = quotChar
        · subst h4
          decide
        · by_cases h5 : c = aposChar
          · subst h5
            decide
          · have he : escChar c = [c] := by
              unfold escChar
              simp [h1, h2, h3, h4, h5]
            rw [he]
            refine ⟨fun hm => ?_, fun hm => ?_, fun hm => ?_, fun hm => ?_⟩
            · simp at hm
              exact h2 hm.symm
            · simp at hm
              exact h3 hm.symm
            · simp at hm
              exact h4 hm.symm
            · simp at hm
              exact h5 hm.symm

theorem amp_head_split (L : List Char) (hne : '&' ∉ L.drop 1) :
    ∀ a k, L = a ++ '&' :: k → a = [] := by
  intro a k h
  cases a with
  | nil => rfl
  | cons x a2 =>
      exfalso
      subst h
      simp only [List.cons_append, List.drop_succ_cons, List.drop_zero] at hne
      exact hne (List.mem_append_right a2 (List.mem_cons_self _ _))

theorem escChar_amp_decomp (c : Char) (a k : List Char)
    (h : escChar c = a ++ '&' :: k) :
    a = [] ∧ escChar c ∈ entityList := by
  by_cases h1 : c = '&'
  · subst h1
    have h2 : escAmp = a ++ '&' :: k := by simpa [escChar] using h
    exact ⟨amp_head_split escAmp (by decide) a k h2, by decide⟩
  · by_cases h2 : c = '<'
    · subst h2
      have h3 : escLt = a ++ '&' :: k := by simpa [escChar] using h
      exact ⟨amp_head_split escLt (by decide) a k h3, by decide⟩
    · by_cases h3 : c = '>'
      · subst h3
        have h4 : escGt = a ++ '&' :: k := by simpa [escChar] using h
        exact ⟨amp_head_split escGt (by decide) a k h4, by decide⟩
      · by_cases h4 : c = quotChar
        · subst h4
          have h5 : escQuot = a ++ '&' :: k := by simpa [escChar] using h
          exact ⟨amp_head_split escQuot (by decide) a k h5, by decide⟩
        · by_cases h5 : c = aposChar
          · subst h5
            have h6 : escApos = a ++ '&' :: k := by
              simpa [escChar, quotChar, aposChar] using h
            exact ⟨amp_head_split escApos (by decide) a k h6, by decide⟩
          · have he : escChar c = [c] := by
              unfold escChar
              simp [h1, h2, h3, h4, h5]
            rw [he] at h
            cases a with
            | nil =>
                simp only [List.nil_append] at h
                have : c = '&' := (List.cons.injEq _ _ _ _ ▸ h).1
                exact absurd this h1
            | cons x a2 =>
                exfalso
                simp at h

theorem escapeHtml_no_special (t : List Char) :
    '<' ∉ escapeHtml t ∧ '>' ∉ escapeHtml t ∧ quotChar ∉ escapeHtml t ∧
      aposChar ∉ escapeHtml t := by
  induction t with
  | nil => decide
  | cons c t ih =>
      obtain ⟨e1, e2, e3, e4⟩ := escChar_no_special c
      obtain ⟨i1, i2, i3, i4⟩ := ih
      rw [escapeHtml_cons]
      refine ⟨fun hm => ?_, fun hm => ?_, fun hm => ?_, fun hm => ?_⟩
      · rcases List.mem_append.mp hm with h | h
        · exact e1 h
        · exact i1 h
      · rcases List.mem_append.mp hm with h | h
        · exact e2 h
        · exact i2 h
      · rcases List.mem_append.mp hm with h | h
        · exact e3 h
        · exact i3 h
      · rcases List.mem_append.mp hm with h | h
        · exact e4 h
        · exact i4 h

theorem escapeHtml_amp_entity (t : List Char) :
    ∀ a b, escapeHtml t = a ++ '&' :: b →
      ∃ e ∈ entityList, ∃ s, '&' :: b = e ++ s := by
  induction t with
  | nil =>
      intro a b h
      have h0 : escapeHtml ([] : List Char) = [] := rfl
      rw [h0] at h
      exact absurd h.symm (by simp)
  | cons c t ih =>
      intro a b h
      rw [escapeHtml_cons] at h
      rcases List.append_eq_append_iff.mp h with ⟨a2, _, hb⟩ | ⟨c2, hc, hd⟩
      · exact ih a2 b hb
      · cases c2 with
        | nil =>
            simp only [List.nil_append] at hd
            exact ih [] b (by simpa using hd.symm)
        | cons y c3 =>
            simp only [List.cons_append] at hd
            have hy : '&' = y := (List.cons.injEq _ _ _ _ ▸ hd).1
            have hb2 : b = c3 ++ escapeHtml t :=
              (List.cons.injEq _ _ _ _ ▸ hd).2
            rw [← hy] at hc
            obtain ⟨ha0, hmem⟩ := escChar_amp_decomp c a c3 hc
            subst ha0
            simp only [List.nil_append] at hc
            refine ⟨escChar c, hmem, escapeHtml t, ?_⟩
            rw [hb2, hc]
            simp

/-- **C10.** For every input, `MessageRenderer.escapeHtml` returns a
string containing no `<`, `>`, `"`, or `'` characters, and every `&` in
the output begins one of the entities `&amp;`, `&lt;`, `&gt;`, `&quot;`,
or `&#039;`; `renderPlainText` satisfies the same property except that
each newline in the input is replaced by the literal tag `<br>`. -/
theorem MessageRenderer.escape_html_spec (t : List Char) :
    ('<' ∉ escapeHtml t ∧ '>' ∉ escapeHtml t ∧ quotChar ∉ escapeHtml t ∧
      aposChar ∉ escapeHtml t) ∧
    (∀ a b, escapeHtml t = a ++ '&' :: b →
      ∃ e ∈ entityList, ∃ s, '&' :: b = e ++ s) ∧
    renderPlainText t = replaceChar nlChar brTag (escapeHtml t) :=
  ⟨escapeHtml_no_special t, escapeHtml_amp_entity t, rfl⟩

/-- C10 witness at a concrete input: in `escapeHtml "a&b"` the single
ampersand of the output starts the entity `&amp;`. -/
theorem MessageRenderer.escape_html_witness :
    ∃ e ∈ entityList, ∃ s, '&' :: sampleEscTail = e ++ s :=
  (MessageRenderer.escape_html_spec sampleEsc).2.1 ['a'] sampleEscTail
    (by decide)

/-! ## StreamHandler lemmas -/

theorem onChunkTexts_append (a b : List CbCall) :
    onChunkTexts (a ++ b) = onChunkTexts a ++ onChunkTexts b := by
  induction a with
  | nil => rfl
  | cons c rest ih => cases c <;> simp [onChunkTexts, ih]

theorem processEvents_chunks (evs : List SSEEvent) (st : StreamState) :
    (processEvents evs st).1.fullResponse =
      st.fullResponse ++ concatStrings (chunkTexts evs) ∧
    onChunkTexts (processEvents evs st).2 = chunkTexts evs := by
  induction evs generalizing st with
  | nil =>
      simp [processEvents, chunkTexts, concatStrings, onChunkTexts,
        String.append_empty]
  | cons e rest ih =>
      cases e <;>
        simp [processEvents, processEvent, chunkTexts, concatStrings,
          onChunkTexts, onChunkTexts_append, ih, String.append_assoc]

/-- **C3.** For every sequence of SSE events consumed without error by
`StreamHandler.streamChat`, the returned object's `response` field equals
the concatenation, in arrival order, of the `text` fields of all events
with type `chunk`, and each such text is passed to `onChunk` exactly once
(the `onChunk` trace equals the chunk-text list itself). -/
theorem StreamHandler.chunk_concat_spec (h : StreamHandler)
    (message sessionId userId : String) (evs : List SSEEvent)
    (hnoerr : ∀ m, SSEEvent.errorEv m ∉ evs) :
    ∃ r, (h.streamChat message sessionId userId
        (StreamRun.success evs)).result = Except.ok r ∧
      r.response = concatStrings (chunkTexts evs) ∧
      onChunkTexts (h.streamChat message sessionId userId
          (StreamRun.success evs)).calls = chunkTexts evs := by
  obtain ⟨h1, h2⟩ := processEvents_chunks evs initialStreamState
  refine ⟨_, rfl, ?_, ?_⟩
  · show (processEvents evs initialStreamState).1.fullResponse =
      concatStrings (chunkTexts evs)
    rw [h1]
    exact String.empty_append _
  · exact h2

/-- C3 witness at concrete inputs. -/
theorem StreamHandler.chunk_concat_witness :
    ∃ r, (hW.streamChat msgW sidW uidW
        (StreamRun.success evsW)).result = Except.ok r ∧
      r.response = concatStrings (chunkTexts evsW) ∧
      onChunkTexts (hW.streamChat msgW sidW uidW
          (StreamRun.success evsW)).calls = chunkTexts evsW := by
  refine StreamHandler.chunk_concat_spec hW msgW sidW uidW evsW ?_
  intro m
  simp [evsW]

/-- **C1 (code bug).**  The claim states that an `error` SSE event is
terminal: `onError` fires, `streamChat` rejects, and no further events
are processed.  In the source the `case 'error'` `throw` sits inside the
`try { JSON.parse(...); switch ... }` block whose `catch (parseError)`
only logs, so the thrown error is swallowed: at the failing input — an
`error` event followed by a `chunk` event — the chunk is still processed,
`onError` never fires, and `streamChat` resolves normally. -/
theorem StreamHandler.error_event_swallowed :
    (hW.streamChat msgW sidW uidW (StreamRun.success
        [SSEEvent.errorEv (some errBoom), SSEEvent.chunk chunkHi])).calls =
      [CbCall.onChunk chunkHi] ∧
    (hW.streamChat msgW sidW uidW (StreamRun.success
        [SSEEvent.errorEv (some errBoom), SSEEvent.chunk chunkHi])).result =
      Except.ok
        { response := chunkHi, sources := [], usedSources := []
          documents := [] } := by
  constructor
  · rfl
  · show Except.ok _ = Except.ok _
    have hresp : ("" : String) ++ chunkHi = chunkHi :=
      String.empty_append chunkHi
    simp [StreamHandler.streamChat, processEvents, processEvent,
      initialStreamState, hresp]

/-- **C4 (amended).** For every message, session id and user id,
`streamChat` issues exactly one request: a `POST` to
`/api/chat/stream?user_id=<userId>` relative to the configured API base
URL (the claim as stated says `/chat/stream`), with body fields exactly
`message` and `session_id`. -/
theorem StreamHandler.request_spec (h : StreamHandler)
    (message sessionId userId : String) (run : StreamRun) :
    (h.streamChat message sessionId userId run).requests =
      [{ method := postMethod, url := h.apiUrl ++ apiChatStreamPath ++ userId
         bodyMessage := message, bodySessionId := sessionId }] := by
  cases run <;> rfl

/-- C4 counterexample to the claim as stated: at concrete inputs the
request URL is the base URL followed by `/api/chat/stream?user_id=…`,
not by `/chat/stream?user_id=…`. -/
theorem StreamHandler.request_path_cex :
    (streamChatRequest urlW msgW sidW uidW).url =
      urlW ++ apiChatStreamPath ++ uidW ∧
    (streamChatRequest urlW msgW sidW uidW).url ≠
      urlW ++ specClaimedStreamPath ++ uidW := by
  constructor
  · rfl
  · decide

/-- **C8.** If `StreamHandler.cancel` is called while a stream is in
flight, the in-flight request is aborted (`abort()` is invoked),
`currentController` becomes `null` so `isStreaming()` returns `false`,
and the pending `streamChat` call rejects with the error
`"Stream cancelled by user"` (leaving `currentController` null); if no
stream is in flight, `cancel` is a no-op. -/
theorem StreamHandler.cancel_spec :
    (∀ h : StreamHandler, h.isStreaming = true →
      (h.cancel).2 = true ∧ (h.cancel).1.currentController = none ∧
        (h.cancel).1.isStreaming = false) ∧
    (∀ h : StreamHandler, h.isStreaming = false → h.cancel = (h, false)) ∧
    (∀ (h : StreamHandler) (message sessionId userId : String)
        (evs : List SSEEvent),
      (h.streamChat message sessionId userId
          (StreamRun.abortedAfter evs)).result =
        Except.error cancelledByUserMsg ∧
      (h.streamChat message sessionId userId
          (StreamRun.abortedAfter evs)).controllerAfter = none) := by
  refine ⟨?_, ?_, ?_⟩
  · intro h hs
    obtain ⟨apiUrl, ctrl⟩ := h
    cases ctrl with
    | none => simp [StreamHandler.isStreaming] at hs
    | some c => exact ⟨rfl, rfl, rfl⟩
  · intro h hs
    obtain ⟨apiUrl, ctrl⟩ := h
    cases ctrl with
    | none => rfl
    | some c => simp [StreamHandler.isStreaming] at hs
  · intro h message sessionId userId evs
    exact ⟨rfl, rfl⟩

/-- C8 witness at concrete inputs. -/
theorem StreamHandler.cancel_witness :
    (hS.cancel).2 = true ∧ (hS.cancel).1.isStreaming = false ∧
    (hW.streamChat msgW sidW uidW (StreamRun.abortedAfter evsW)).result =
      Except.error cancelledByUserMsg := by
  have h := StreamHandler.cancel_spec
  exact ⟨(h.1 hS rfl).1, (h.1 hS rfl).2.2,
    (h.2.2 hW msgW sidW uidW evsW).1⟩

/-! ## saveSettings validation -/

/-- **C7.** If any of the required fields `llm_provider`, `llm_model`, or
`llm_api_key` is empty when `saveSettings` runs, then `saveSettings`
returns after showing an error message, without writing to
`chrome.storage` and without issuing the `POST` to the settings
endpoint, so the persisted settings are unchanged. -/
theorem saveSettings_validation_spec (s : SettingsForm)
    (apiUrl userId : String) (backendOk : Bool)
    (hmiss : s.llm_provider = "" ∨ s.llm_model = "" ∨ s.llm_api_key = "") :
    saveSettings s apiUrl userId backendOk =
      [SaveEffect.showMessage requiredFieldsMsg MsgKind.errorKind] ∧
    SaveEffect.chromeStorageSet ∉ saveSettings s apiUrl userId backendOk ∧
    ∀ u, SaveEffect.fetchPost u ∉ saveSettings s apiUrl userId backendOk := by
  have h : saveSettings s apiUrl userId backendOk =
      [SaveEffect.showMessage requiredFieldsMsg MsgKind.errorKind] := by
    unfold saveSettings
    rw [if_pos hmiss]
  refine ⟨h, ?_, ?_⟩
  · rw [h]
    simp
  · intro u
    rw [h]
    simp

/-- C7 witness at concrete inputs (empty provider). -/
theorem saveSettings_validation_witness :
    saveSettings formW urlW uidW true =
      [SaveEffect.showMessage requiredFieldsMsg MsgKind.errorKind] :=
  (saveSettings_validation_spec formW urlW uidW true (Or.inl rfl)).1

end AtlasAI
